import Mathlib

/-!
Shallow embedding of the `analog` CloudWatch-log extraction tool
(Rust sources: src/main.rs, src/aws.rs, src/db.rs, src/config.rs,
src/models.rs, src/utilities.rs) and verification of its specification.

Remote calls and SQL statements are external collaborators: they are
modelled by their documented interfaces (a list of page responses the
remote would return to successive calls, success/failure oracles for
individual SQL statements, transactional visibility for the store).
Everything else is translated directly from the Rust source.
-/

namespace Analog

/-- A log group as returned by the remote service; the program only ever
reads its `log_group_name` field (src/main.rs). -/
structure LogGroup where
  log_group_name : Option String
deriving DecidableEq

/-- A fetched log event, `SavedLogEvent` in src/models.rs (mirroring the
fields of the remote `FilteredLogEvent` that the program reads).
Every field is optional. -/
structure SavedLogEvent where
  log_stream_name : Option String
  timestamp : Option Int
  message : Option String
  ingestion_time : Option Int
  event_id : Option String
deriving DecidableEq

/-- One response of a paginated remote call: an optional batch of items
(`resp.log_groups` / `resp.events`) and an optional continuation token
(`resp.next_token`). -/
structure PageResponse (α : Type) where
  items : Option (List α)
  next_token : Option String
deriving DecidableEq

/-- An error value (`SendableError` in src/models.rs, `sqlx::Error`, or an
AWS SDK error); the program never inspects its contents, so it is modelled
as a tagged string. -/
structure Err where
  msg : String
deriving DecidableEq

/-- The pagination loop shared verbatim by `get_log_groups`
(src/aws.rs lines 41-62, src/main.rs lines 129-150) and `fetch_logs`
(src/aws.rs lines 64-95, src/main.rs lines 153-183): call the remote with
the current token, extend the accumulator `result` with the page's items
when they are present, stop when the returned token is absent, and
propagate a failed call immediately through `?`.  The remote collaborator
is modelled as the list of responses it gives to successive calls; the
value is `none` when the loop would call the remote more often than that
list provides, and otherwise `some` of the loop's result paired with the
number of remote calls performed. -/
def paginate {α : Type} : List (Except Err (PageResponse α)) → List α →
    Option (Except Err (List α) × Nat)
  | [], _ => none
  | .error e :: _, _ => some (.error e, 1)
  | .ok r :: rest, acc =>
    let acc' := acc ++ r.items.getD []
    match r.next_token with
    | none => some (.ok acc', 1)
    | some _ =>
      match paginate rest acc' with
      | none => none
      | some (res, k) => some (res, k + 1)

/-- Function `get_log_groups` (src/aws.rs lines 41-62): run the pagination loop
against the describe-log-groups endpoint, starting from an empty
accumulator and an absent token. -/
def get_log_groups (remote : List (Except Err (PageResponse LogGroup))) :
    Option (Except Err (List LogGroup) × Nat) :=
  paginate remote []

/-- Function `fetch_logs` (src/aws.rs lines 64-95): run the pagination loop against
the filter-log-events endpoint for one group and time window, starting
from an empty accumulator and an absent token. -/
def fetch_logs
    (remote : String → Int → Int → List (Except Err (PageResponse SavedLogEvent)))
    (log_group_name : String) (start_time end_time : Int) :
    Option (Except Err (List SavedLogEvent) × Nat) :=
  paginate (remote log_group_name start_time end_time) []

/-- The items carried by a list of page responses, concatenated in
remote-returned order; a page whose `items` field is absent contributes
nothing, exactly as the loop's `if let Some(...)` skips it. -/
def pageItems {α : Type} (rs : List (PageResponse α)) : List α :=
  (rs.map (fun r => r.items.getD [])).flatten

/-- Well-formed terminating page sequence: every response before the last
carries a continuation token and the last one does not. -/
def Terminating {α : Type} (rs : List (PageResponse α)) : Prop :=
  (∀ r ∈ rs.dropLast, r.next_token.isSome = true) ∧
    (∀ r, rs.getLast? = some r → r.next_token = none)

/-- A persisted row of the `cloudwatch_logs` table (src/db.rs
`init_sqlite_db`): the autoincrement surrogate key `id` plus the four data
columns bound by the insert statement. -/
structure Row where
  id : Nat
  log_group : String
  event_id : String
  timestamp : Int
  message : String
deriving DecidableEq

/-- The grouping key of the dedupe statement:
`GROUP BY log_group, event_id, timestamp, message`. -/
def rowKey (r : Row) : String × String × Int × String :=
  (r.log_group, r.event_id, r.timestamp, r.message)

/-- The id set selected by the dedupe subquery `SELECT MIN(id) FROM
cloudwatch_logs GROUP BY log_group, event_id, timestamp, message`:
one minimal id per distinct key present in the table. -/
def groupMinIds (t : List Row) : List Nat :=
  ((t.map rowKey).dedup).filterMap
    (fun k => ((t.filter (fun r => rowKey r = k)).map Row.id).min?)

/-- Function `dedupe_rows` (src/db.rs lines 66-82): one transaction executing
`DELETE FROM cloudwatch_logs WHERE id NOT IN (SELECT MIN(id) ... GROUP BY
log_group, event_id, timestamp, message)` and committing.  Exactly the
rows whose id lies in the selected set of per-key minimal ids survive. -/
def dedupe_rows (t : List Row) : List Row :=
  t.filter (fun r => r.id ∈ groupMinIds t)

/-- The four column values bound by the parameterized INSERT of
`store_events_in_sqlite`; the `id` column is assigned by the database, not
by the program. -/
structure InsertRow where
  log_group : String
  event_id : String
  timestamp : Int
  message : String
deriving DecidableEq

/-- The row built by one iteration of the insert loop in
`store_events_in_sqlite` (src/db.rs lines 97-110): each absent optional
field is coerced by `unwrap_or_default()` / `unwrap_or(0)` — empty string
for `event_id` and `message`, `0` for `timestamp` — and `log_group` is the
given group name. -/
def mkInsertRow (log_group_name : String) (event : SavedLogEvent) : InsertRow :=
  ⟨log_group_name, event.event_id.getD "", event.timestamp.getD 0,
    event.message.getD ""⟩

/-- The insert loop of `store_events_in_sqlite`: run the INSERT statements
one per event inside the open transaction, propagating the first failure
through `?`.  `insertOk i` is the SQL executor's verdict on the i-th
INSERT; the value is the pending (uncommitted) row list, or `none` when
some insert failed and the function returned early. -/
def runInserts (log_group_name : String) (insertOk : Nat → Bool) :
    List SavedLogEvent → Nat → Option (List InsertRow)
  | [], _ => some []
  | e :: es, i =>
    if insertOk i then
      match runInserts log_group_name insertOk es (i + 1) with
      | none => none
      | some pending => some (mkInsertRow log_group_name e :: pending)
    else none

/-- Function `store_events_in_sqlite` (src/db.rs lines 84-115): begin one
transaction, insert one row per event inside it, commit.  The SQL executor
is the collaborator: `insertOk` and `commitOk` are its verdicts on the
individual statements; rows pending inside the transaction become visible
only at the commit, and a transaction dropped after a failure is rolled
back by the executor's cleanup.  The result is the call's outcome paired
with the visible table afterwards. -/
def store_events_in_sqlite (insertOk : Nat → Bool) (commitOk : Bool)
    (table : List InsertRow) (log_group_name : String)
    (events : List SavedLogEvent) : Except Err Unit × List InsertRow :=
  match runInserts log_group_name insertOk events 0 with
  | none => (.error ⟨"insert failed"⟩, table)
  | some pending =>
    if commitOk then (.ok (), table ++ pending)
    else (.error ⟨"commit failed"⟩, table)

/-- One observable step of the per-group loop in `main` (src/main.rs lines
95-123): the body for a group starts (its fetch begins) or finishes (its
store has been attempted and the loop moves on). -/
inductive TaskEvent where
  | started (group : String)
  | finished (group : String)
deriving DecidableEq

/-- Result of running the per-group loop: the outcome `main` returns, the
visible table, the groups whose store step was reached (in order), and the
trace of task start/finish events. -/
structure RunResult where
  outcome : Except Err Unit
  table : List InsertRow
  processed : List String
  trace : List TaskEvent

/-- The group name used by the loop body:
`log_group.log_group_name.clone().unwrap_or_default()` (src/main.rs line 96). -/
def groupName (lg : LogGroup) : String :=
  lg.log_group_name.getD ""

/-- Bookkeeping for one completed loop iteration: prepend the group's name
to the processed list and its start/finish events to the trace. -/
def consGroup (g : String) (r : RunResult) : RunResult :=
  ⟨r.outcome, r.table, g :: r.processed, .started g :: .finished g :: r.trace⟩

/-- The per-group loop of `main` (src/main.rs lines 95-123): for each
selected group in order, fetch its events — a fetch error propagates out
of `main` through `?`, ending the run — then call
`store_events_in_sqlite`, whose error is only logged (`if let Err`) before
the loop continues with the next group.  `fetch` abstracts `fetch_logs`
for the run's fixed time window; `insertOk g` and `commitOk g` are the SQL
executor's verdicts on group `g`'s store transaction. -/
def main_loop (fetch : String → Except Err (List SavedLogEvent))
    (insertOk : String → Nat → Bool) (commitOk : String → Bool) :
    List LogGroup → List InsertRow → RunResult
  | [], table => ⟨.ok (), table, [], []⟩
  | lg :: rest, table =>
    match fetch (groupName lg) with
    | .error e => ⟨.error e, table, [], [.started (groupName lg)]⟩
    | .ok events =>
      consGroup (groupName lg)
        (main_loop fetch insertOk commitOk rest
          (store_events_in_sqlite (insertOk (groupName lg))
            (commitOk (groupName lg)) table (groupName lg) events).2)

/-- Number of task-start events in a trace. -/
def startCount : List TaskEvent → Nat
  | [] => 0
  | .started _ :: tr => startCount tr + 1
  | .finished _ :: tr => startCount tr

/-- Number of task-finish events in a trace. -/
def finishCount : List TaskEvent → Nat
  | [] => 0
  | .started _ :: tr => finishCount tr
  | .finished _ :: tr => finishCount tr + 1

/-- Number of tasks started and not yet finished after a trace. -/
def activeTasks (tr : List TaskEvent) : Nat :=
  startCount tr - finishCount tr

/-- The log-group filter of `main` (src/main.rs lines 46-59): when a group
name is requested, keep exactly the discovered groups whose
`log_group_name` is present and equal to it; when no name is requested,
keep the full list.  There is no sentinel handling of any kind in this
code path. -/
def filtered_log_groups (log_group : Option String)
    (all_log_groups : List LogGroup) : List LogGroup :=
  match log_group with
  | some group_name =>
    all_log_groups.filter (fun lg =>
      match lg.log_group_name with
      | some lg_name => lg_name == group_name
      | none => false)
  | none => all_log_groups

/-- The hardcoded region allow-list `AWS_REGIONS` (src/aws.rs lines 7-18). -/
def AWS_REGIONS : List String :=
  ["us-east-1", "us-east-2", "us-west-1", "us-west-2",
   "af-south-1", "ap-east-1", "ap-south-1", "ap-south-2",
   "ap-southeast-1", "ap-southeast-2", "ap-southeast-3",
   "ap-northeast-1", "ap-northeast-2", "ap-northeast-3",
   "ca-central-1", "eu-central-1", "eu-central-2",
   "eu-west-1", "eu-west-2", "eu-west-3", "eu-south-1",
   "eu-south-2", "eu-north-1", "me-central-1", "me-south-1",
   "sa-east-1"]

/-- Function `find_region` (src/aws.rs lines 20-22): look the input up in the
hardcoded allow-list. -/
def find_region (input : String) : Option String :=
  AWS_REGIONS.find? (fun region => region == input)

/-- Function `build_config` (src/aws.rs lines 24-39): forward the optional profile
to the loader and, when a region string is present, look it up in
`AWS_REGIONS` and call `.unwrap()` on the lookup result before forwarding
it.  A `none` value models the panic of that `unwrap` when the region
string is outside the list; `some` carries the profile and region actually
forwarded to the loader's resolution chain. -/
def build_config (profile : Option String) (region : Option String) :
    Option (Option String × Option String) :=
  match region with
  | none => some (profile, none)
  | some region_str =>
    match find_region region_str with
    | some selected_region => some (profile, some selected_region)
    | none => none

/-- Function `millis_to_datetime` (src/utilities.rs lines 3-7; the same function at
src/main.rs lines 186-191):
`Utc.timestamp_millis_opt(millis).single().unwrap_or_else(||
Utc.timestamp_opt(0, 0).single().unwrap())`.  The chrono collaborator is
modelled by its documented interface: a UTC datetime is represented by its
millisecond value, `valid` is chrono's decidable representable-range
predicate (for UTC the result is never ambiguous, so `single()` returns a
value exactly on in-range inputs), and the final `unwrap` — whose panic is
modelled as `none` — is reached only if the epoch fallback itself were not
representable. -/
def millis_to_datetime (valid : Int → Bool) (millis : Int) : Option Int :=
  match (if valid millis then some millis else none) with
  | some dt => some dt
  | none =>
    match (if valid 0 then some 0 else none) with
    | some dt => some dt
    | none => none

theorem paginate_cons_some {α : Type} (r : PageResponse α)
    (L : List (Except Err (PageResponse α))) (acc : List α) (tok : String)
    (h : r.next_token = some tok) :
    paginate (.ok r :: L) acc =
      match paginate L (acc ++ r.items.getD []) with
      | none => none
      | some (res, k) => some (res, k + 1) := by
  simp only [paginate, h]

theorem paginate_ok_of_terminating {α : Type} :
    ∀ (rs : List (PageResponse α)) (acc : List α), rs ≠ [] →
      (∀ r ∈ rs.dropLast, r.next_token.isSome = true) →
      (∀ r, rs.getLast? = some r → r.next_token = none) →
      paginate (rs.map .ok) acc = some (.ok (acc ++ pageItems rs), rs.length)
  | [], _, hne, _, _ => absurd rfl hne
  | [r], acc, _, _, hlast => by
    have hnone : r.next_token = none := hlast r rfl
    simp [paginate, hnone, pageItems]
  | r :: s :: rs, acc, _, hmid, hlast => by
    have hr : r.next_token.isSome = true := by
      apply hmid
      simp [List.dropLast]
    obtain ⟨tok, htok⟩ := Option.isSome_iff_exists.mp hr
    have ih := paginate_ok_of_terminating (s :: rs) (acc ++ r.items.getD [])
      (by simp)
      (fun x hx => hmid x (by simp [List.dropLast] at hx ⊢; tauto))
      (fun x hx => hlast x (by simpa using hx))
    rw [List.map_cons, paginate_cons_some r _ acc tok htok, ih]
    simp [pageItems, List.append_assoc]

theorem paginate_error_after_good {α : Type} (e : Err)
    (rest : List (Except Err (PageResponse α))) :
    ∀ (good : List (PageResponse α)) (acc : List α),
      (∀ r ∈ good, r.next_token.isSome = true) →
      paginate (good.map .ok ++ .error e :: rest) acc =
        some (.error e, good.length + 1)
  | [], acc, _ => by simp [paginate]
  | r :: good, acc, hmid => by
    have hr : r.next_token.isSome = true := hmid r (by simp)
    obtain ⟨tok, htok⟩ := Option.isSome_iff_exists.mp hr
    have ih := paginate_error_after_good e rest good (acc ++ r.items.getD [])
      (fun x hx => hmid x (by simp [hx]))
    simp [paginate, htok, ih]

/-- C1: for every terminating sequence of pages `p0..pn` (pages `0..n-1`
carrying a present continuation cursor, page `n` an absent one), the
pagination loop — both as `get_log_groups` and as `fetch_logs` for a fixed
group and time window — returns exactly the concatenation
`p0 ++ p1 ++ ... ++ pn` in remote-returned order and invokes the
page-fetch operation exactly `n+1` times. -/
theorem pagination_returns_concatenation :
    (∀ rs : List (PageResponse LogGroup), rs ≠ [] → Terminating rs →
      get_log_groups (rs.map .ok) = some (.ok (pageItems rs), rs.length)) ∧
    (∀ (rs : List (PageResponse SavedLogEvent))
        (g : String) (s e : Int), rs ≠ [] → Terminating rs →
      fetch_logs (fun _ _ _ => rs.map .ok) g s e =
        some (.ok (pageItems rs), rs.length)) := by
  constructor
  · intro rs hne ht
    simpa [get_log_groups] using paginate_ok_of_terminating rs [] hne ht.1 ht.2
  · intro rs g s e hne ht
    simpa [fetch_logs] using paginate_ok_of_terminating rs [] hne ht.1 ht.2

/-- Witness for C1 on a concrete two-page sequence. -/
theorem pagination_returns_concatenation_witness :
    get_log_groups [.ok ⟨some [⟨some "A"⟩, ⟨some "B"⟩], some "c0"⟩,
        .ok ⟨some [⟨some "C"⟩], none⟩] =
      some (.ok [⟨some "A"⟩, ⟨some "B"⟩, ⟨some "C"⟩], 2) := by
  have h := pagination_returns_concatenation.1
    [⟨some [⟨some "A"⟩, ⟨some "B"⟩], some "c0"⟩, ⟨some [⟨some "C"⟩], none⟩]
    (by simp) ⟨by simp [List.dropLast], by intro r hr; simp at hr; subst hr; rfl⟩
  simpa [pageItems] using h

/-- C6: if the page fetch fails at page `k` after `k` successful pages that
all carried a continuation cursor, the loop returns that failure as its
overall result — no partial accumulation of pages `0..k-1` is returned —
and the failed call is the last one made (exactly `k+1` calls: no retry),
whatever responses would have followed. -/
theorem pagination_fails_without_partial_result :
    (∀ (good : List (PageResponse LogGroup)) (e : Err)
        (rest : List (Except Err (PageResponse LogGroup))),
      (∀ r ∈ good, r.next_token.isSome = true) →
      get_log_groups (good.map .ok ++ .error e :: rest) =
        some (.error e, good.length + 1)) ∧
    (∀ (good : List (PageResponse SavedLogEvent)) (e : Err)
        (rest : List (Except Err (PageResponse SavedLogEvent)))
        (g : String) (s t : Int),
      (∀ r ∈ good, r.next_token.isSome = true) →
      fetch_logs (fun _ _ _ => good.map .ok ++ .error e :: rest) g s t =
        some (.error e, good.length + 1)) := by
  constructor
  · intro good e rest hmid
    simpa [get_log_groups] using paginate_error_after_good e rest good [] hmid
  · intro good e rest g s t hmid
    simpa [fetch_logs] using paginate_error_after_good e rest good [] hmid

theorem row_eq_of_id_eq {t : List Row} (hids : (t.map Row.id).Nodup)
    {x y : Row} (hx : x ∈ t) (hy : y ∈ t) (h : x.id = y.id) : x = y :=
  List.inj_on_of_nodup_map hids hx hy h

theorem mem_groupMinIds_iff {t : List Row} (hids : (t.map Row.id).Nodup)
    {r : Row} (hr : r ∈ t) :
    r.id ∈ groupMinIds t ↔
      ((t.filter (fun x => rowKey x = rowKey r)).map Row.id).min? = some r.id := by
  constructor
  · intro h
    obtain ⟨k, hk, hmin⟩ :
        ∃ k, k ∈ t.map rowKey ∧
          ((t.filter (fun x => rowKey x = k)).map Row.id).min? = some r.id := by
      simpa [groupMinIds, List.mem_filterMap, List.mem_dedup] using h
    obtain ⟨hmem, -⟩ := List.min?_eq_some_iff'.mp hmin
    obtain ⟨x, hxf, hxid⟩ : ∃ x, x ∈ t.filter (fun y => rowKey y = k) ∧ x.id = r.id := by
      simpa [List.mem_map] using hmem
    have hxt : x ∈ t := (List.mem_filter.mp hxf).1
    have hxk : rowKey x = k := by
      have h2 := (List.mem_filter.mp hxf).2
      simpa using h2
    have hxr : x = r := row_eq_of_id_eq hids hxt hr hxid
    have hkr : k = rowKey r := by rw [← hxk, hxr]
    rw [← hkr]
    exact hmin
  · intro h
    have hk : rowKey r ∈ (t.map rowKey).dedup :=
      List.mem_dedup.mpr (List.mem_map_of_mem rowKey hr)
    exact List.mem_filterMap.mpr ⟨rowKey r, hk, h⟩

theorem mem_dedupe_rows_iff {t : List Row} (hids : (t.map Row.id).Nodup)
    {r : Row} :
    r ∈ dedupe_rows t ↔ r ∈ t ∧
      ((t.filter (fun x => rowKey x = rowKey r)).map Row.id).min? = some r.id := by
  unfold dedupe_rows
  rw [List.mem_filter]
  constructor
  · rintro ⟨hrt, hd⟩
    refine ⟨hrt, ?_⟩
    exact (mem_groupMinIds_iff hids hrt).mp (by simpa using hd)
  · rintro ⟨hrt, hmin⟩
    exact ⟨hrt, by simpa using (mem_groupMinIds_iff hids hrt).mpr hmin⟩

theorem nodup_all_eq_singleton {α : Type} {l : List α} (hnd : l.Nodup)
    {x : α} (hx : x ∈ l) (hall : ∀ y ∈ l, y = x) : l = [x] := by
  cases l with
  | nil => cases hx
  | cons a l' =>
    have ha : a = x := hall a (by simp)
    have hl' : l' = [] := by
      cases l' with
      | nil => rfl
      | cons b l'' =>
        exfalso
        have hb : b = x := hall b (by simp)
        have hnotmem : a ∉ b :: l'' := (List.nodup_cons.mp hnd).1
        exact hnotmem (by rw [ha, ← hb]; simp)
    subst hl'
    rw [ha]

theorem dedupe_rows_key_singleton {t : List Row}
    (hids : (t.map Row.id).Nodup) :
    ∀ k ∈ t.map rowKey, ∃ r, r ∈ t ∧ rowKey r = k ∧
      (∀ x ∈ t, rowKey x = k → r.id ≤ x.id) ∧
      (dedupe_rows t).filter (fun x => rowKey x = k) = [r] := by
  intro k hk
  have hnd : t.Nodup := hids.of_map
  obtain ⟨w, hwt, hwk⟩ : ∃ w, w ∈ t ∧ rowKey w = k := by
    simpa [List.mem_map] using hk
  have hwgroup : w ∈ t.filter (fun x => rowKey x = k) :=
    List.mem_filter.mpr ⟨hwt, by simpa using hwk⟩
  have hsome : ((t.filter (fun x => rowKey x = k)).map Row.id).min?.isSome :=
    List.isSome_min?_of_mem (List.mem_map_of_mem Row.id hwgroup)
  obtain ⟨m, hm⟩ := Option.isSome_iff_exists.mp hsome
  obtain ⟨hmmem, hmle⟩ := List.min?_eq_some_iff'.mp hm
  obtain ⟨r, hrf, hrid⟩ :
      ∃ r, r ∈ t.filter (fun x => rowKey x = k) ∧ r.id = m := by
    simpa [List.mem_map] using hmmem
  have hrt : r ∈ t := (List.mem_filter.mp hrf).1
  have hrk : rowKey r = k := by
    have h2 := (List.mem_filter.mp hrf).2
    simpa using h2
  refine ⟨r, hrt, hrk, ?_, ?_⟩
  · intro x hx hxk
    have : x.id ∈ (t.filter (fun y => rowKey y = k)).map Row.id :=
      List.mem_map_of_mem Row.id (List.mem_filter.mpr ⟨hx, by simpa using hxk⟩)
    rw [hrid]
    exact hmle x.id this
  · have hrmin : ((t.filter (fun x => rowKey x = rowKey r)).map Row.id).min? = some r.id := by
      rw [hrk, hrid]
      exact hm
    have hrd : r ∈ dedupe_rows t := (mem_dedupe_rows_iff hids).mpr ⟨hrt, hrmin⟩
    apply nodup_all_eq_singleton
    · exact ((hnd.filter _).filter _)
    · exact List.mem_filter.mpr ⟨hrd, by simpa using hrk⟩
    · intro y hy
      have hyd : y ∈ dedupe_rows t := (List.mem_filter.mp hy).1
      have hyk : rowKey y = k := by
        have h2 := (List.mem_filter.mp hy).2
        simpa using h2
      obtain ⟨hyt, hymin⟩ := (mem_dedupe_rows_iff hids).mp hyd
      rw [hyk] at hymin
      have : y.id = m := by
        have := hm ▸ hymin
        exact Option.some.inj (by rw [← hm, ← hymin])
      exact row_eq_of_id_eq hids hyt hrt (by rw [this, hrid])

theorem dedupe_rows_idem {t : List Row} (hids : (t.map Row.id).Nodup) :
    dedupe_rows (dedupe_rows t) = dedupe_rows t := by
  have hsub : List.Sublist (dedupe_rows t) t := List.filter_sublist t
  have hids' : ((dedupe_rows t).map Row.id).Nodup :=
    (hsub.map Row.id).nodup hids
  unfold dedupe_rows
  apply List.filter_eq_self.mpr
  intro r hr
  have hrt : r ∈ t := hsub.mem hr
  obtain ⟨-, hrmin⟩ := (mem_dedupe_rows_iff hids).mp hr
  have hsingle := dedupe_rows_key_singleton hids (rowKey r)
    (List.mem_map_of_mem rowKey hrt)
  obtain ⟨r₀, hr₀t, hr₀k, hr₀min, hr₀filter⟩ := hsingle
  have hrfilter : r ∈ (dedupe_rows t).filter (fun x => rowKey x = rowKey r) :=
    List.mem_filter.mpr ⟨hr, by simp⟩
  have hrr₀ : r = r₀ := by
    rw [hr₀filter] at hrfilter
    simpa using hrfilter
  have hfilter_eq :
      (dedupe_rows t).filter (fun x => rowKey x = rowKey r) = [r] := by
    rw [hr₀filter, hrr₀]
  have : ((dedupe_rows t).filter (fun x => rowKey x = rowKey r)).map Row.id = [r.id] := by
    rw [hfilter_eq]; rfl
  have hmin' : (((dedupe_rows t).filter (fun x => rowKey x = rowKey r)).map Row.id).min?
      = some r.id := by
    rw [this]; rfl
  simpa using (mem_groupMinIds_iff hids' hr).mpr hmin'

/-- C2: with pairwise-distinct ids (the `id` column is the table's primary
key), `dedupe_rows` keeps exactly the rows whose id is the minimum id of
their `(log_group, event_id, timestamp, message)` group — deleting
precisely the others — so exactly one row, the lowest-id one, remains per
tuple present in the table, and a second consecutive call deletes
nothing. -/
theorem dedupe_rows_correct (t : List Row) (hids : (t.map Row.id).Nodup) :
    dedupe_rows t =
      t.filter (fun r =>
        ((t.filter (fun x => rowKey x = rowKey r)).map Row.id).min? = some r.id) ∧
    (∀ k ∈ t.map rowKey, ∃ r, r ∈ t ∧ rowKey r = k ∧
      (∀ x ∈ t, rowKey x = k → r.id ≤ x.id) ∧
      (dedupe_rows t).filter (fun x => rowKey x = k) = [r]) ∧
    dedupe_rows (dedupe_rows t) = dedupe_rows t := by
  refine ⟨?_, dedupe_rows_key_singleton hids, dedupe_rows_idem hids⟩
  apply List.filter_congr
  intro r hr
  rw [decide_eq_decide]
  exact mem_groupMinIds_iff hids hr

/-- Witness for C2 on a concrete three-row table holding one duplicated
tuple: the duplicate with the larger id is deleted, and the second call is
a no-op. -/
theorem dedupe_rows_correct_witness :
    dedupe_rows [⟨1, "g", "e", 5, "m"⟩, ⟨2, "g", "e", 5, "m"⟩, ⟨3, "h", "x", 7, "n"⟩] =
      [⟨1, "g", "e", 5, "m"⟩, ⟨3, "h", "x", 7, "n"⟩] ∧
    dedupe_rows (dedupe_rows
        [⟨1, "g", "e", 5, "m"⟩, ⟨2, "g", "e", 5, "m"⟩, ⟨3, "h", "x", 7, "n"⟩]) =
      dedupe_rows [⟨1, "g", "e", 5, "m"⟩, ⟨2, "g", "e", 5, "m"⟩, ⟨3, "h", "x", 7, "n"⟩] :=
  ⟨by decide,
    (dedupe_rows_correct
      [⟨1, "g", "e", 5, "m"⟩, ⟨2, "g", "e", 5, "m"⟩, ⟨3, "h", "x", 7, "n"⟩]
      (by decide)).2.2⟩

/-- Witness for C6: one successful page followed by a failing call. -/
theorem pagination_fails_without_partial_result_witness :
    get_log_groups [.ok ⟨some [⟨some "A"⟩], some "c0"⟩, .error ⟨"boom"⟩,
        .ok ⟨some [⟨some "B"⟩], none⟩] =
      some (.error ⟨"boom"⟩, 2) := by
  have h := pagination_fails_without_partial_result.1
    [⟨some [⟨some "A"⟩], some "c0"⟩] ⟨"boom"⟩ [.ok ⟨some [⟨some "B"⟩], none⟩]
    (by simp)
  simpa using h

theorem runInserts_eq (g : String) (insertOk : Nat → Bool) :
    ∀ (events : List SavedLogEvent) (i : Nat),
      runInserts g insertOk events i =
        if ∀ j < events.length, insertOk (i + j) = true
        then some (events.map (mkInsertRow g)) else none
  | [], i => by simp [runInserts]
  | e :: es, i => by
    rw [runInserts, runInserts_eq g insertOk es (i + 1)]
    simp only [List.length_cons]
    by_cases hok : insertOk i = true
    · rw [if_pos hok]
      by_cases hall : ∀ j < es.length, insertOk (i + 1 + j) = true
      · have hall' : ∀ j < es.length + 1, insertOk (i + j) = true := by
          intro j hj
          match j with
          | 0 => simpa using hok
          | j + 1 =>
            have := hall j (by omega)
            simpa [Nat.add_assoc, Nat.add_comm 1 j] using this
        rw [if_pos hall, if_pos hall']
        rfl
      · have hall' : ¬∀ j < es.length + 1, insertOk (i + j) = true := by
          intro h
          apply hall
          intro j hj
          have := h (j + 1) (by omega)
          simpa [Nat.add_assoc, Nat.add_comm 1 j] using this
        rw [if_neg hall, if_neg hall']
    · have hall' : ¬∀ j < es.length + 1, insertOk (i + j) = true := by
        intro h
        exact hok (by simpa using h 0 (by omega))
      rw [if_neg hok, if_neg hall']

theorem store_events_eq (insertOk : Nat → Bool) (commitOk : Bool)
    (table : List InsertRow) (g : String) (events : List SavedLogEvent) :
    store_events_in_sqlite insertOk commitOk table g events =
      if (∀ j < events.length, insertOk j = true) ∧ commitOk = true
      then (.ok (), table ++ events.map (mkInsertRow g))
      else if ∀ j < events.length, insertOk j = true
      then (.error ⟨"commit failed"⟩, table)
      else (.error ⟨"insert failed"⟩, table) := by
  unfold store_events_in_sqlite
  rw [runInserts_eq]
  by_cases hall : ∀ j < events.length, insertOk j = true
  · have hall0 : ∀ j < events.length, insertOk (0 + j) = true := by
      intro j hj; simpa using hall j hj
    rw [if_pos hall0]
    by_cases hc : commitOk = true
    · rw [if_pos (And.intro hall hc)]
      simp [hc]
    · rw [if_neg (fun h => hc h.2), if_pos hall]
      have hc' : commitOk = false := by
        cases commitOk with
        | false => rfl
        | true => exact absurd rfl hc
      simp [hc']
  · have hall0 : ¬∀ j < events.length, insertOk (0 + j) = true := by
      intro h; exact hall (fun j hj => by simpa using h j hj)
    rw [if_neg hall0, if_neg (fun h => hall h.1), if_neg hall]

/-- C7: `store_events_in_sqlite` is atomic — it inserts one row per event
inside a single transaction and commits, and its visible result is either
the whole batch appended (success) or the table exactly unchanged (a
`StoreError` from any failing insert or from the commit); no strict
non-empty prefix of the batch is ever committed. -/
theorem store_events_atomic (insertOk : Nat → Bool) (commitOk : Bool)
    (table : List InsertRow) (g : String) (events : List SavedLogEvent) :
    ((store_events_in_sqlite insertOk commitOk table g events).2 =
        table ++ events.map (mkInsertRow g) ∨
      (store_events_in_sqlite insertOk commitOk table g events).2 = table) ∧
    ((store_events_in_sqlite insertOk commitOk table g events).1 = .ok () ↔
      (∀ j < events.length, insertOk j = true) ∧ commitOk = true) ∧
    ((store_events_in_sqlite insertOk commitOk table g events).1 = .ok () →
      (store_events_in_sqlite insertOk commitOk table g events).2 =
        table ++ events.map (mkInsertRow g)) ∧
    ∀ p, (store_events_in_sqlite insertOk commitOk table g events).2 = table ++ p →
      p = [] ∨ p = events.map (mkInsertRow g) := by
  rw [store_events_eq]
  by_cases hall : ∀ j < events.length, insertOk j = true
  · by_cases hc : commitOk = true
    · rw [if_pos (And.intro hall hc)]
      refine ⟨Or.inl rfl, ⟨fun _ => ⟨hall, hc⟩, fun _ => rfl⟩, fun _ => rfl, ?_⟩
      intro p hp
      right
      exact ((List.append_right_inj table).mp hp).symm
    · rw [if_neg (fun h => hc h.2), if_pos hall]
      refine ⟨Or.inr rfl, ⟨fun h => Except.noConfusion h, fun h => absurd h.2 hc⟩,
        fun h => Except.noConfusion h, ?_⟩
      intro p hp
      left
      have h2 : table ++ [] = table ++ p := by simpa using hp
      exact ((List.append_right_inj table).mp h2).symm
  · rw [if_neg (fun h => hall h.1), if_neg hall]
    refine ⟨Or.inr rfl, ⟨fun h => Except.noConfusion h, fun h => absurd h.1 hall⟩,
      fun h => Except.noConfusion h, ?_⟩
    intro p hp
    left
    have h2 : table ++ [] = table ++ p := by simpa using hp
    exact ((List.append_right_inj table).mp h2).symm

/-- Witness for C7: a two-event batch whose second insert fails leaves the
table unchanged; the same batch with everything succeeding appends both
rows. -/
theorem store_events_atomic_witness :
    ((store_events_in_sqlite (fun i => i == 0) true
        [⟨"g0", "e0", 1, "m0"⟩] "G" [⟨none, some 2, some "a", none, some "x"⟩,
          ⟨none, some 3, some "b", none, some "y"⟩]).2 = [⟨"g0", "e0", 1, "m0"⟩]) ∧
    ((store_events_in_sqlite (fun _ => true) true
        [⟨"g0", "e0", 1, "m0"⟩] "G" [⟨none, some 2, some "a", none, some "x"⟩]).1 = .ok ()) :=
  ⟨by
    rcases (store_events_atomic (fun i => i == 0) true
        [⟨"g0", "e0", 1, "m0"⟩] "G" [⟨none, some 2, some "a", none, some "x"⟩,
          ⟨none, some 3, some "b", none, some "y"⟩]).1 with h | h
    · exact absurd h (by decide)
    · exact h,
   (store_events_atomic (fun _ => true) true
      [⟨"g0", "e0", 1, "m0"⟩] "G" [⟨none, some 2, some "a", none, some "x"⟩]).2.1.mpr
      ⟨by decide, rfl⟩⟩

/-- C8: the stored row of an event defaults each absent field — empty
string for `event_id`, `0` for `timestamp`, empty string for `message` —
and its `log_group` is always the given group name; a successful store
call appends exactly these coerced rows. -/
theorem store_events_defaults (g : String) :
    (∀ e : SavedLogEvent,
      (e.event_id = none → (mkInsertRow g e).event_id = "") ∧
      (e.timestamp = none → (mkInsertRow g e).timestamp = 0) ∧
      (e.message = none → (mkInsertRow g e).message = "") ∧
      (mkInsertRow g e).log_group = g) ∧
    (∀ (table : List InsertRow) (events : List SavedLogEvent),
      store_events_in_sqlite (fun _ => true) true table g events =
        (.ok (), table ++ events.map (mkInsertRow g))) := by
  constructor
  · intro e
    refine ⟨fun h => ?_, fun h => ?_, fun h => ?_, rfl⟩ <;>
      simp [mkInsertRow, h]
  · intro table events
    rw [store_events_eq]
    simp

/-- Witness for C8: an event with every field absent is stored as
`("", 0, "")` under its group name. -/
theorem store_events_defaults_witness :
    store_events_in_sqlite (fun _ => true) true [] "G"
        [⟨none, none, none, none, none⟩] =
      (.ok (), [⟨"G", "", 0, ""⟩]) := by
  have h := (store_events_defaults "G").2 [] [⟨none, none, none, none, none⟩]
  simpa [mkInsertRow] using h

theorem main_loop_cons_err (fetch : String → Except Err (List SavedLogEvent))
    (insertOk : String → Nat → Bool) (commitOk : String → Bool)
    (lg : LogGroup) (rest : List LogGroup) (table : List InsertRow)
    (e : Err) (hf : fetch (groupName lg) = .error e) :
    main_loop fetch insertOk commitOk (lg :: rest) table =
      ⟨.error e, table, [], [.started (groupName lg)]⟩ := by
  simp [main_loop, hf]

theorem main_loop_cons_ok (fetch : String → Except Err (List SavedLogEvent))
    (insertOk : String → Nat → Bool) (commitOk : String → Bool)
    (lg : LogGroup) (rest : List LogGroup) (table : List InsertRow)
    (events : List SavedLogEvent) (hf : fetch (groupName lg) = .ok events) :
    main_loop fetch insertOk commitOk (lg :: rest) table =
      consGroup (groupName lg)
        (main_loop fetch insertOk commitOk rest
          (store_events_in_sqlite (insertOk (groupName lg))
            (commitOk (groupName lg)) table (groupName lg) events).2) := by
  simp [main_loop, hf]

theorem main_loop_start_le_finish
    (fetch : String → Except Err (List SavedLogEvent))
    (insertOk : String → Nat → Bool) (commitOk : String → Bool) :
    ∀ (groups : List LogGroup) (table : List InsertRow) (n : Nat),
      startCount ((main_loop fetch insertOk commitOk groups table).trace.take n) ≤
        finishCount ((main_loop fetch insertOk commitOk groups table).trace.take n) + 1
  | [], table, n => by simp [main_loop, startCount, finishCount]
  | lg :: rest, table, n => by
    cases hf : fetch (groupName lg) with
    | error e =>
      rw [main_loop_cons_err fetch insertOk commitOk lg rest table e hf]
      match n with
      | 0 => simp [startCount, finishCount]
      | n + 1 => simp [List.take, startCount, finishCount]
    | ok events =>
      rw [main_loop_cons_ok fetch insertOk commitOk lg rest table events hf]
      match n with
      | 0 => simp [startCount, finishCount]
      | 1 => simp [consGroup, List.take, startCount, finishCount]
      | n + 2 =>
        have ih := main_loop_start_le_finish fetch insertOk commitOk rest
          ((store_events_in_sqlite (insertOk (groupName lg))
            (commitOk (groupName lg)) table (groupName lg) events).2) n
        simp only [consGroup, List.take, startCount, finishCount] at ih ⊢
        omega

theorem main_loop_trace_all_ok
    (fetch : String → Except Err (List SavedLogEvent))
    (insertOk : String → Nat → Bool) (commitOk : String → Bool) :
    ∀ (groups : List LogGroup) (table : List InsertRow),
      (∀ lg ∈ groups, ∃ v, fetch (groupName lg) = .ok v) →
      (main_loop fetch insertOk commitOk groups table).trace =
        groups.foldr (fun lg acc =>
          .started (groupName lg) :: .finished (groupName lg) :: acc) []
  | [], table, _ => by simp [main_loop]
  | lg :: rest, table, h => by
    obtain ⟨v, hv⟩ := h lg (by simp)
    rw [main_loop_cons_ok fetch insertOk commitOk lg rest table v hv]
    have ih := main_loop_trace_all_ok fetch insertOk commitOk rest
      ((store_events_in_sqlite (insertOk (groupName lg))
        (commitOk (groupName lg)) table (groupName lg) v).2)
      (fun x hx => h x (by simp [hx]))
    simp [consGroup, ih]

/-- C3: at no point of the per-group pipeline's execution do more than 5
group tasks hold an execution slot simultaneously — along every prefix of
the loop's trace the number of started-but-unfinished tasks is at most 5
(the loop is strictly sequential, so it is in fact at most 1) — and when
every fetch succeeds the loop runs exactly one fetch-then-store task per
selected group, in selection order. -/
theorem main_loop_concurrency_bound
    (fetch : String → Except Err (List SavedLogEvent))
    (insertOk : String → Nat → Bool) (commitOk : String → Bool)
    (groups : List LogGroup) (table : List InsertRow) :
    (∀ n, activeTasks
        ((main_loop fetch insertOk commitOk groups table).trace.take n) ≤ 5) ∧
    ((∀ lg ∈ groups, ∃ v, fetch (groupName lg) = .ok v) →
      (main_loop fetch insertOk commitOk groups table).trace =
        groups.foldr (fun lg acc =>
          .started (groupName lg) :: .finished (groupName lg) :: acc) []) := by
  constructor
  · intro n
    have h := main_loop_start_le_finish fetch insertOk commitOk groups table n
    unfold activeTasks
    omega
  · exact main_loop_trace_all_ok fetch insertOk commitOk groups table

/-- Witness for C3 on a concrete two-group run with succeeding fetches. -/
theorem main_loop_concurrency_bound_witness :
    activeTasks (((main_loop (fun _ => .ok [⟨none, none, none, none, none⟩])
        (fun _ _ => true) (fun _ => true)
        [⟨some "A"⟩, ⟨some "B"⟩] []).trace).take 3) ≤ 5 ∧
    (main_loop (fun _ => .ok [⟨none, none, none, none, none⟩])
        (fun _ _ => true) (fun _ => true) [⟨some "A"⟩, ⟨some "B"⟩] []).trace =
      [.started "A", .finished "A", .started "B", .finished "B"] :=
  ⟨(main_loop_concurrency_bound (fun _ => .ok [⟨none, none, none, none, none⟩])
      (fun _ _ => true) (fun _ => true) [⟨some "A"⟩, ⟨some "B"⟩] []).1 3,
   by
    have h := (main_loop_concurrency_bound (fun _ => .ok [⟨none, none, none, none, none⟩])
      (fun _ _ => true) (fun _ => true) [⟨some "A"⟩, ⟨some "B"⟩] []).2
      (fun lg _ => ⟨[⟨none, none, none, none, none⟩], rfl⟩)
    simpa [groupName] using h⟩

theorem main_loop_append_ok
    (fetch : String → Except Err (List SavedLogEvent))
    (insertOk : String → Nat → Bool) (commitOk : String → Bool) :
    ∀ (pre rest : List LogGroup) (table : List InsertRow),
      (∀ lg ∈ pre, ∃ v, fetch (groupName lg) = .ok v) →
      main_loop fetch insertOk commitOk (pre ++ rest) table =
        ⟨(main_loop fetch insertOk commitOk rest
            (main_loop fetch insertOk commitOk pre table).table).outcome,
         (main_loop fetch insertOk commitOk rest
            (main_loop fetch insertOk commitOk pre table).table).table,
         (main_loop fetch insertOk commitOk pre table).processed ++
           (main_loop fetch insertOk commitOk rest
             (main_loop fetch insertOk commitOk pre table).table).processed,
         (main_loop fetch insertOk commitOk pre table).trace ++
           (main_loop fetch insertOk commitOk rest
             (main_loop fetch insertOk commitOk pre table).table).trace⟩
  | [], rest, table, _ => by simp [main_loop]
  | lg :: pre, rest, table, h => by
    obtain ⟨v, hv⟩ := h lg (by simp)
    rw [List.cons_append,
      main_loop_cons_ok fetch insertOk commitOk lg (pre ++ rest) table v hv,
      main_loop_cons_ok fetch insertOk commitOk lg pre table v hv,
      main_loop_append_ok fetch insertOk commitOk pre rest
        ((store_events_in_sqlite (insertOk (groupName lg))
          (commitOk (groupName lg)) table (groupName lg) v).2)
        (fun x hx => h x (by simp [hx]))]
    simp [consGroup]

theorem main_loop_processed_all_ok
    (fetch : String → Except Err (List SavedLogEvent))
    (insertOk : String → Nat → Bool) (commitOk : String → Bool) :
    ∀ (groups : List LogGroup) (table : List InsertRow),
      (∀ lg ∈ groups, ∃ v, fetch (groupName lg) = .ok v) →
      (main_loop fetch insertOk commitOk groups table).outcome = .ok () ∧
      (main_loop fetch insertOk commitOk groups table).processed =
        groups.map groupName
  | [], table, _ => by simp [main_loop]
  | lg :: rest, table, h => by
    obtain ⟨v, hv⟩ := h lg (by simp)
    rw [main_loop_cons_ok fetch insertOk commitOk lg rest table v hv]
    have ih := main_loop_processed_all_ok fetch insertOk commitOk rest
      ((store_events_in_sqlite (insertOk (groupName lg))
        (commitOk (groupName lg)) table (groupName lg) v).2)
      (fun x hx => h x (by simp [hx]))
    simp [consGroup, ih.1, ih.2]

/-- C4: in the per-group loop, a fetch failure aborts the whole run — the
error becomes `main`'s result, no later group is processed, and the table
keeps exactly the rows stored by the earlier groups — while a store
failure for one group only skips that group's rows: the run completes
successfully, every group is still processed, and the final table equals
that of the same run without the failing group. -/
theorem main_loop_error_policy :
    (∀ (fetch : String → Except Err (List SavedLogEvent))
        (insertOk : String → Nat → Bool) (commitOk : String → Bool)
        (pre post : List LogGroup) (lg : LogGroup)
        (table : List InsertRow) (e : Err),
      (∀ x ∈ pre, ∃ v, fetch (groupName x) = .ok v) →
      fetch (groupName lg) = .error e →
      (main_loop fetch insertOk commitOk (pre ++ lg :: post) table).outcome =
          .error e ∧
      (main_loop fetch insertOk commitOk (pre ++ lg :: post) table).processed =
          pre.map groupName ∧
      (main_loop fetch insertOk commitOk (pre ++ lg :: post) table).table =
          (main_loop fetch insertOk commitOk pre table).table) ∧
    (∀ (fetch : String → Except Err (List SavedLogEvent))
        (insertOk : String → Nat → Bool) (commitOk : String → Bool)
        (pre post : List LogGroup) (bad : LogGroup)
        (table : List InsertRow) (vbad : List SavedLogEvent),
      (∀ x ∈ pre, ∃ v, fetch (groupName x) = .ok v) →
      fetch (groupName bad) = .ok vbad →
      (∀ x ∈ post, ∃ v, fetch (groupName x) = .ok v) →
      ¬((∀ j < vbad.length, insertOk (groupName bad) j = true) ∧
          commitOk (groupName bad) = true) →
      (main_loop fetch insertOk commitOk (pre ++ bad :: post) table).outcome =
          .ok () ∧
      (main_loop fetch insertOk commitOk (pre ++ bad :: post) table).processed =
          (pre ++ bad :: post).map groupName ∧
      (main_loop fetch insertOk commitOk (pre ++ bad :: post) table).table =
          (main_loop fetch insertOk commitOk (pre ++ post) table).table) := by
  constructor
  · intro fetch insertOk commitOk pre post lg table e hpre hf
    rw [main_loop_append_ok fetch insertOk commitOk pre (lg :: post) table hpre,
      main_loop_cons_err fetch insertOk commitOk lg post
        (main_loop fetch insertOk commitOk pre table).table e hf]
    have hp := main_loop_processed_all_ok fetch insertOk commitOk pre table hpre
    simp [hp.2]
  · intro fetch insertOk commitOk pre post bad table vbad hpre hbad hpost hfail
    have hstore : (store_events_in_sqlite (insertOk (groupName bad))
        (commitOk (groupName bad))
        (main_loop fetch insertOk commitOk pre table).table
        (groupName bad) vbad).2 =
        (main_loop fetch insertOk commitOk pre table).table := by
      rw [store_events_eq, if_neg hfail]
      by_cases hi : ∀ j < vbad.length, insertOk (groupName bad) j = true
      · rw [if_pos hi]
      · rw [if_neg hi]
    have hq := main_loop_processed_all_ok fetch insertOk commitOk post
      (main_loop fetch insertOk commitOk pre table).table hpost
    have hp := main_loop_processed_all_ok fetch insertOk commitOk pre table hpre
    rw [main_loop_append_ok fetch insertOk commitOk pre (bad :: post) table hpre,
      main_loop_cons_ok fetch insertOk commitOk bad post
        (main_loop fetch insertOk commitOk pre table).table vbad hbad,
      hstore,
      main_loop_append_ok fetch insertOk commitOk pre post table hpre]
    refine ⟨?_, ?_, ?_⟩
    · simpa [consGroup] using hq.1
    · simp [consGroup, hp.2, hq.2]
    · simp [consGroup]

/-- Witness for C4: with groups `[A, B]`, a failing fetch for `A` aborts
the run before `B`, while a failing store for `A` lets the run finish with
only `B`'s rows. -/
theorem main_loop_error_policy_witness :
    (main_loop (fun g => if g == "A" then .error ⟨"net"⟩
        else .ok [⟨none, none, none, none, some "e"⟩])
      (fun _ _ => true) (fun _ => true) [⟨some "A"⟩, ⟨some "B"⟩] []).outcome =
        .error ⟨"net"⟩ ∧
    (main_loop (fun _ => .ok [⟨none, none, none, none, some "e"⟩])
      (fun _ _ => true) (fun g => g == "B") [⟨some "A"⟩, ⟨some "B"⟩] []).outcome =
        .ok () := by
  constructor
  · have h := main_loop_error_policy.1
      (fun g => if g == "A" then .error ⟨"net"⟩
        else .ok [⟨none, none, none, none, some "e"⟩])
      (fun _ _ => true) (fun _ => true) [] [⟨some "B"⟩] ⟨some "A"⟩ [] ⟨"net"⟩
      (by intro x hx; cases hx) (by rfl)
    simpa using h.1
  · have h := main_loop_error_policy.2
      (fun _ => .ok [⟨none, none, none, none, some "e"⟩])
      (fun _ _ => true) (fun g => g == "B") [] [⟨some "B"⟩] ⟨some "A"⟩ []
      [⟨none, none, none, none, some "e"⟩]
      (by intro x hx; cases hx) (by rfl)
      (by intro x _; exact ⟨[⟨none, none, none, none, some "e"⟩], rfl⟩)
      (by intro hc; simpa [groupName] using hc.2)
    simpa using h.1

/-- C5 counterexample: requesting the name "all" does not return the full
discovered list — the filter has no sentinel handling, so it keeps only
groups literally named "all" and drops everything else. -/
theorem filtered_log_groups_all_is_not_a_sentinel :
    filtered_log_groups (some "all") [⟨some "g1"⟩] ≠ [⟨some "g1"⟩] := by
  decide

/-- C5 (amended): selecting with an absent request returns the full input
unchanged; selecting with a present name returns exactly the elements of
the input whose name equals it (a group with an absent name never
matches), preserving the input's original order, and the literal "all" is
not special; selecting from the empty list returns the empty list for
every request. -/
theorem filtered_log_groups_correct :
    (∀ gs : List LogGroup, filtered_log_groups none gs = gs) ∧
    (∀ (n : String) (gs : List LogGroup),
      List.Sublist (filtered_log_groups (some n) gs) gs ∧
      ∀ lg, lg ∈ filtered_log_groups (some n) gs ↔
        lg ∈ gs ∧ lg.log_group_name = some n) ∧
    (∀ req : Option String, filtered_log_groups req [] = []) := by
  refine ⟨fun gs => rfl, fun n gs => ⟨List.filter_sublist gs, fun lg => ?_⟩,
    fun req => ?_⟩
  · rw [filtered_log_groups, List.mem_filter]
    constructor
    · rintro ⟨hmem, hp⟩
      refine ⟨hmem, ?_⟩
      cases hname : lg.log_group_name with
      | none => rw [hname] at hp; cases hp
      | some s =>
        rw [hname] at hp
        have hsn : s = n := by simpa using hp
        rw [hsn]
    · rintro ⟨hmem, hname⟩
      exact ⟨hmem, by rw [hname]; simp⟩
  · cases req <;> rfl

/-- Witness for C5 (amended): a mixed list filtered by the name "A". -/
theorem filtered_log_groups_correct_witness :
    LogGroup.mk (some "A") ∈
      filtered_log_groups (some "A") [⟨some "A"⟩, ⟨some "B"⟩, ⟨none⟩] :=
  ((filtered_log_groups_correct.2.1 "A" [⟨some "A"⟩, ⟨some "B"⟩, ⟨none⟩]).2
    ⟨some "A"⟩).mpr ⟨by simp, rfl⟩

/-- C9 counterexample: `build_config` does not succeed for every region
string — a region outside the hardcoded allow-list makes the
`selected_region.unwrap()` call panic. -/
theorem build_config_panics_on_unlisted_region :
    build_config (some "default") (some "mars-north-1") = none := by
  decide

/-- C9 (amended): `build_config` validates a present region string against
the hardcoded `AWS_REGIONS` allow-list before forwarding it: it succeeds
and forwards the region exactly when the string is in the list (an absent
region is forwarded as absent), and panics on every region string outside
the list. -/
theorem build_config_region_allowlist :
    (∀ p : Option String, build_config p none = some (p, none)) ∧
    (∀ (p : Option String) (r : String), r ∈ AWS_REGIONS →
      build_config p (some r) = some (p, some r)) ∧
    (∀ (p : Option String) (r : String), r ∉ AWS_REGIONS →
      build_config p (some r) = none) := by
  refine ⟨fun p => rfl, fun p r hr => ?_, fun p r hr => ?_⟩
  · cases hfind : find_region r with
    | none =>
      exfalso
      have hfind' : List.find? (fun region => region == r) AWS_REGIONS = none :=
        hfind
      have hne := List.find?_eq_none.mp hfind' r hr
      simp at hne
    | some x =>
      have hfind' : List.find? (fun region => region == r) AWS_REGIONS = some x :=
        hfind
      have hxr : x = r := by simpa using List.find?_some hfind'
      subst hxr
      simp [build_config, hfind]
  · cases hfind : find_region r with
    | none => simp [build_config, hfind]
    | some x =>
      exfalso
      have hfind' : List.find? (fun region => region == r) AWS_REGIONS = some x :=
        hfind
      have hmem : x ∈ AWS_REGIONS := List.mem_of_find?_eq_some hfind'
      have hxr : x = r := by simpa using List.find?_some hfind'
      subst hxr
      exact hr hmem

/-- Witness for C9 (amended): a listed and an unlisted region string. -/
theorem build_config_region_allowlist_witness :
    build_config (some "default") (some "us-east-1") =
        some (some "default", some "us-east-1") ∧
    build_config (some "default") (some "moon-base-1") = none :=
  ⟨build_config_region_allowlist.2.1 (some "default") "us-east-1" (by decide),
   build_config_region_allowlist.2.2 (some "default") "moon-base-1" (by decide)⟩

/-- C10: `millis_to_datetime` is total for every representable-range
predicate that admits the epoch (chrono's does): it never panics, returns
the datetime of the given milliseconds whenever that value is uniquely
representable, and returns the Unix epoch for every out-of-range input. -/
theorem millis_to_datetime_total (valid : Int → Bool) (h0 : valid 0 = true)
    (m : Int) :
    (millis_to_datetime valid m).isSome = true ∧
    (valid m = true → millis_to_datetime valid m = some m) ∧
    (valid m = false → millis_to_datetime valid m = some 0) := by
  by_cases hm : valid m = true
  · refine ⟨?_, fun _ => ?_, fun hf => ?_⟩
    · simp [millis_to_datetime, hm]
    · simp [millis_to_datetime, hm]
    · rw [hm] at hf; cases hf
  · have hm' : valid m = false := by
      cases h : valid m with
      | false => rfl
      | true => exact absurd h hm
    refine ⟨?_, fun ht => absurd ht hm, fun _ => ?_⟩
    · simp [millis_to_datetime, hm', h0]
    · simp [millis_to_datetime, hm', h0]

/-- Witness for C10 with a concrete bounded range: an in-range input maps
to itself, an out-of-range one to the epoch. -/
theorem millis_to_datetime_total_witness :
    millis_to_datetime (fun m => decide (-1000 ≤ m ∧ m ≤ 1000)) 7 = some 7 ∧
    millis_to_datetime (fun m => decide (-1000 ≤ m ∧ m ≤ 1000)) 5000 = some 0 :=
  ⟨(millis_to_datetime_total (fun m => decide (-1000 ≤ m ∧ m ≤ 1000))
      (by decide) 7).2.1 (by decide),
   (millis_to_datetime_total (fun m => decide (-1000 ≤ m ∧ m ≤ 1000))
      (by decide) 5000).2.2 (by decide)⟩

end Analog

